import Mathlib

/-!
Shallow embedding of `src/utils.py` from the parts-distributor SKU
classifier repository, together with proofs of the specification claims.

Modelling conventions:
* numpy floating-point values are modelled as exact rationals (`ℚ`);
  "within floating-point tolerance" therefore becomes exact equality;
* a 2-D numpy array is a `List (List ℚ)`; since a Lean list of rows does
  not carry the ndarray's column width, the width `np.shape(y_test)[1]`
  is passed alongside as an explicit `cat_count` argument;
* the classifier `model` is modelled by its only used operation,
  `predict`, a pure function from an input to a probability vector;
* fallible numpy indexing (`IndexError` on out-of-range writes) is
  modelled with `Option`.
-/

namespace Utils

/-- `np.argmax` on a vector: the lowest index attaining the maximum.
`argmaxAux rest i best bestv` scans `rest`, whose head sits at index `i`,
keeping the current best index `best` with value `bestv`; numpy only
replaces the best on a strictly greater value, which is what makes the
lowest index win on ties. -/
def argmaxAux : List ℚ → Nat → Nat → ℚ → Nat
  | [], _, best, _ => best
  | v :: rest, i, best, bestv =>
      if bestv < v then argmaxAux rest (i + 1) i v
      else argmaxAux rest (i + 1) best bestv

/-- `np.argmax l`.  numpy raises on an empty vector; the claims only use
nonempty vectors, and we return `0` there. -/
def argmax : List ℚ → Nat
  | [] => 0
  | v :: rest => argmaxAux rest 1 0 v

/-- `np.zeros((c, c))`: the `c × c` zero matrix. -/
def zeros (c : Nat) : List (List ℚ) :=
  List.replicate c (List.replicate c 0)

/-- `r[i][j] += 1` on a numpy array: `none` models the `IndexError`
raised when `i` or `j` is out of range. -/
def incAt (r : List (List ℚ)) (i j : Nat) : Option (List (List ℚ)) :=
  match r.get? i with
  | none => none
  | some row =>
    match row.get? j with
    | none => none
    | some v => some (r.set i (row.set j (v + 1)))

/-- The accumulation loop of `cross_category_bleeding` (lines 9–12):
for each `(y, pred)` pair, increment `r[argmax y][argmax pred]`. -/
def accumulate : List (List ℚ × List ℚ) → List (List ℚ) → Option (List (List ℚ))
  | [], r => some r
  | (y, pred) :: rest, r =>
      match incAt r (argmax y) (argmax pred) with
      | none => none
      | some r' => accumulate rest r'

/-- `np.split(l, n)`: split a flat vector into `n` equal sections.
`none` models the two error paths: with `n = 0` numpy computes
`N % sections` and raises `ZeroDivisionError` (integer modulo by zero),
and when `n` does not divide the length it raises `ValueError`
(unequal division). -/
def npSplit (l : List ℚ) (n : Nat) : Option (List (List ℚ)) :=
  if n = 0 then none
  else if l.length % n ≠ 0 then none
  else some ((List.range n).map
    (fun k => ((l.drop (k * (l.length / n))).take (l.length / n))))

/-- One row of the normalization on line 16:
`[v/np.sum(a) if v else 0 for v in a]`.  Python's `if v` tests
truthiness, i.e. `v ≠ 0`. -/
def normalizeRowImpl (a : List ℚ) : List ℚ :=
  a.map (fun v => if v ≠ 0 then v / a.sum else 0)

/-- Line 16 of `cross_category_bleeding`: flatten, split into
`cat_count` rows, normalize each row entry-wise, stack back.  `none`
propagates the `np.split` errors (in particular the `ZeroDivisionError`
raised when `cat_count = 0`). -/
def normalizeImpl (r : List (List ℚ)) (cat_count : Nat) :
    Option (List (List ℚ)) :=
  (npSplit r.flatten cat_count).map (fun rows => rows.map normalizeRowImpl)

/-- `cross_category_bleeding(model, x_test, y_test, batch_size)`.
`cat_count` is `np.shape(y_test)[1]`, the column width of the 2-D label
array, passed explicitly because a Lean list of rows does not carry it.
`preds = model.predict(x_test)` is `x_test.map predict`; the loop zips
`x_test`, `y_test` and `preds`, so the pairs actually consumed are
`y_test.zip (x_test.map predict)` (the zip truncates to the shortest).
`batch_size` is accepted and never used, exactly as in the source. -/
def cross_category_bleeding {α : Type} (predict : α → List ℚ)
    (x_test : List α) (y_test : List (List ℚ)) (cat_count : Nat)
    (batch_size : Nat) : Option (List (List ℚ)) :=
  let _ := batch_size
  let preds := x_test.map predict
  match accumulate (y_test.zip preds) (zeros cat_count) with
  | none => none
  | some r => normalizeImpl r cat_count

/-- The division-by-zero events on line 16.  `np.split` runs first and
computes `N % sections`, so `cat_count = 0` is itself an integer
division (modulo) by zero; past that, the divisions executed are
exactly `v / np.sum(a)` for entries `v ≠ 0`, and such a division is by
zero iff the row sum is zero.  (The `np.split` unequal-division
`ValueError` is an error but not a division by zero, so it contributes
`false` here.) -/
def normalizeDividesByZero (r : List (List ℚ)) (cat_count : Nat) : Bool :=
  cat_count = 0 ||
    (match npSplit r.flatten cat_count with
     | none => false
     | some rows =>
        rows.any (fun a => a.any (fun v => v ≠ 0 ∧ a.sum = 0)))

/-- Whether a call to `cross_category_bleeding` executes a division by
zero (no division happens in the accumulation loop). -/
def cross_category_bleeding_divides_by_zero {α : Type} (predict : α → List ℚ)
    (x_test : List α) (y_test : List (List ℚ)) (cat_count : Nat) : Bool :=
  match accumulate (y_test.zip (x_test.map predict)) (zeros cat_count) with
  | none => false
  | some r => normalizeDividesByZero r cat_count

/-- The spec's per-row normalization (§4.1 step 4), written from the
spec's words for the refinement claim: if the row sum is nonzero divide
every entry by the row sum, otherwise set every entry to 0. -/
def normalizeRowSpec (a : List ℚ) : List ℚ :=
  if a.sum ≠ 0 then a.map (fun v => v / a.sum) else a.map (fun _ => 0)

/-- The spec's normalization applied row by row (for the refinement
claim; not part of the source embedding). -/
def normalizeSpec (r : List (List ℚ)) : List (List ℚ) :=
  r.map normalizeRowSpec

/- ## Confusion diagram renderer (`graphviz_cross_category_diagram`) -/

/-- Round a rational to the nearest integer, ties to even — the rounding
CPython's fixed-point float formatting performs. -/
def roundHalfEven (q : ℚ) : ℤ :=
  let f : ℤ := ⌊q⌋
  let frac : ℚ := q - f
  if frac < 1 / 2 then f
  else if 1 / 2 < frac then f + 1
  else if f % 2 = 0 then f else f + 1

/-- Pad the decimal representation of `k < 1000` to width 3 with leading
zeros. -/
def pad3 (k : Nat) : String :=
  if k < 10 then "00" ++ toString k
  else if k < 100 then "0" ++ toString k
  else toString k

/-- Python's `'{:.3f}'.format(q)`: fixed-point with exactly 3 decimal
places, rounding half to even. -/
def formatFixed3 (q : ℚ) : String :=
  let n : ℤ := roundHalfEven (q * 1000)
  let sign := if n < 0 then "-" else ""
  sign ++ toString (n.natAbs / 1000) ++ "." ++ pad3 (n.natAbs % 1000)

/-- `'C{}'.format(c)`: the graphviz node name for category `c`. -/
def node_name (c : Nat) : String := "C" ++ toString c

/-- The `label` lambda on line 20: the provided label when the list is
long enough, else `'Category {}'.format(c)`. -/
def labelOf (class_labels : List String) (c : Nat) : String :=
  if h : c < class_labels.length then class_labels.get ⟨c, h⟩
  else "Category " ++ toString c

/-- A node registered with `graph.node(name, label)`. -/
structure GvNode where
  name : String
  label : String
deriving DecidableEq, Repr

/-- An edge registered with `graph.edge(src, dst, label)`. -/
structure GvEdge where
  src : String
  dst : String
  label : String
deriving DecidableEq, Repr

/-- The edges the inner loop (lines 25–29) emits for row `true_c` of the
matrix: one per entry whose value times 100 is strictly positive,
labelled `'{:.3f}%'.format(acc)`. -/
def rowEdges (true_c : Nat) (preds : List ℚ) : List GvEdge :=
  (List.range preds.length).filterMap (fun pred_c =>
    let acc := preds.getD pred_c 0 * 100
    if 0 < acc then some ⟨node_name true_c, node_name pred_c, formatFixed3 acc ++ "%"⟩
    else none)

/-- `graphviz_cross_category_diagram(res_matrix, class_labels)`: the
digraph is modelled by its node list and edge list, in emission order. -/
def graphviz_cross_category_diagram (res_matrix : List (List ℚ))
    (class_labels : List String) : List GvNode × List GvEdge :=
  ((List.range res_matrix.length).map
      (fun true_c => ⟨node_name true_c, labelOf class_labels true_c⟩),
   (List.range res_matrix.length).flatMap
      (fun true_c => rowEdges true_c (res_matrix.getD true_c [])))

/- ## Incremental classification plotter (`char_by_char_classification_plot`) -/

/-- `char_by_char_classification_plot(model, partnum, x)`, reduced to
the data rows of the DataFrame it plots (the line-plot rendering is an
external matplotlib effect with no data content of its own).  Row `i`
(0-based) is built from the prefix `x[:i+1]`:
`[partnum[i] if i < len(partnum) else ''] + list(pred.flat)`. -/
def char_by_char_classification_plot {α : Type} (predict : List α → List ℚ)
    (partnum : List String) (x : List α) : List (String × List ℚ) :=
  let x_steps := (List.range' 1 (x.length - 1)).map (fun i => x.take i)
  x_steps.enum.map (fun step =>
    (if step.1 < partnum.length then partnum.getD step.1 "" else "",
     predict step.2))

/- ## Helper notions for the claims -/

/-- Number of zipped test examples whose true category (argmax of the
label vector) is `i`. -/
def countTrue (pairs : List (List ℚ × List ℚ)) (i : Nat) : Nat :=
  (pairs.filter (fun p => argmax p.1 == i)).length

/-- Sum of row `i` of a matrix (`0` when the row does not exist). -/
def rowSumAt (r : List (List ℚ)) (i : Nat) : ℚ :=
  ((r.get? i).getD []).sum

/-- The matrix is `c × c`. -/
def Shape (r : List (List ℚ)) (c : Nat) : Prop :=
  r.length = c ∧ ∀ k row, r.get? k = some row → row.length = c

/-- All entries of the matrix are nonnegative. -/
def EntriesNonneg (r : List (List ℚ)) : Prop :=
  ∀ k row, r.get? k = some row → ∀ v ∈ row, 0 ≤ v

/-- Number of strictly positive entries of a matrix. -/
def countPos (m : List (List ℚ)) : Nat :=
  (m.map (fun row => (row.filter (fun v => decide (0 < v))).length)).sum

end Utils

namespace Utils

/- ## Basic facts about the accumulation loop -/

lemma get?_set_self {β : Type} {l : List β} {i : Nat} {x : β} (h : i < l.length) :
    (l.set i x).get? i = some x := by
  rw [List.get?_set, if_pos rfl, List.get?_eq_getElem?, List.getElem?_eq_getElem h]
  rfl

lemma get?_lt_length {β : Type} {l : List β} {i : Nat} {x : β}
    (h : l.get? i = some x) : i < l.length := by
  by_contra hge
  rw [List.get?_eq_none.2 (Nat.le_of_not_lt hge)] at h
  exact absurd h (by simp)

lemma incAt_eq_some {r r' : List (List ℚ)} {i j : Nat}
    (h : incAt r i j = some r') :
    ∃ row v, r.get? i = some row ∧ row.get? j = some v ∧
      r' = r.set i (row.set j (v + 1)) := by
  unfold incAt at h
  split at h
  · exact absurd h (by simp)
  next row hi =>
    split at h
    · exact absurd h (by simp)
    next v hj =>
      exact ⟨row, v, hi, hj, (Option.some_injective _ h).symm⟩

lemma sum_set_add_one :
    ∀ (row : List ℚ) (j : Nat) (v : ℚ), row.get? j = some v →
      (row.set j (v + 1)).sum = row.sum + 1
  | [], j, v, h => by simp at h
  | w :: rest, 0, v, h => by
      simp only [List.get?] at h
      obtain rfl : w = v := by exact Option.some_injective _ h
      simp [List.set, List.sum_cons]; ring
  | w :: rest, j + 1, v, h => by
      simp only [List.get?] at h
      have ih := sum_set_add_one rest j v h
      simp [List.set, List.sum_cons, ih]; ring

lemma incAt_rowSum {r r' : List (List ℚ)} {i0 j0 : Nat}
    (h : incAt r i0 j0 = some r') (i : Nat) :
    rowSumAt r' i = rowSumAt r i + (if i0 = i then 1 else 0) := by
  obtain ⟨row, v, hi, hj, rfl⟩ := incAt_eq_some h
  by_cases hii : i0 = i
  · subst hii
    have hlt : i0 < r.length := get?_lt_length hi
    rw [if_pos rfl]
    unfold rowSumAt
    rw [get?_set_self hlt, hi]
    simpa using sum_set_add_one row j0 v hj
  · rw [if_neg hii]
    unfold rowSumAt
    rw [List.get?_set_ne _ _ hii]
    simp

lemma incAt_shape {r r' : List (List ℚ)} {i0 j0 c : Nat}
    (h : incAt r i0 j0 = some r') (hs : Shape r c) : Shape r' c := by
  obtain ⟨row, v, hi, hj, rfl⟩ := incAt_eq_some h
  obtain ⟨hlen, hrows⟩ := hs
  refine ⟨by simpa using hlen, ?_⟩
  intro k row' hk
  rcases eq_or_ne i0 k with rfl | hne
  · rw [get?_set_self (get?_lt_length hi)] at hk
    obtain rfl : row.set j0 (v + 1) = row' := Option.some_injective _ hk
    simpa using hrows i0 row hi
  · rw [List.get?_set_ne _ _ hne] at hk
    exact hrows k row' hk

lemma incAt_nonneg {r r' : List (List ℚ)} {i0 j0 : Nat}
    (h : incAt r i0 j0 = some r') (hn : EntriesNonneg r) : EntriesNonneg r' := by
  obtain ⟨row, v, hi, hj, rfl⟩ := incAt_eq_some h
  intro k row' hk w hw
  rcases eq_or_ne i0 k with rfl | hne
  · rw [get?_set_self (get?_lt_length hi)] at hk
    obtain rfl : row.set j0 (v + 1) = row' := Option.some_injective _ hk
    rcases List.mem_or_eq_of_mem_set hw with hw' | rfl
    · exact hn i0 row hi w hw'
    · have hv : 0 ≤ v := hn i0 row hi v (List.get?_mem hj)
      linarith
  · rw [List.get?_set_ne _ _ hne] at hk
    exact hn k row' hk w hw

lemma accumulate_shape :
    ∀ {ps : List (List ℚ × List ℚ)} {r r' : List (List ℚ)} {c : Nat},
      accumulate ps r = some r' → Shape r c → Shape r' c
  | [], r, r', c, h, hs => by
      obtain rfl : r = r' := Option.some_injective _ h
      exact hs
  | (y, pred) :: rest, r, r', c, h, hs => by
      unfold accumulate at h
      split at h
      · exact absurd h (by simp)
      next r1 h1 => exact accumulate_shape h (incAt_shape h1 hs)

lemma accumulate_nonneg :
    ∀ {ps : List (List ℚ × List ℚ)} {r r' : List (List ℚ)},
      accumulate ps r = some r' → EntriesNonneg r → EntriesNonneg r'
  | [], r, r', h, hn => by
      obtain rfl : r = r' := Option.some_injective _ h
      exact hn
  | (y, pred) :: rest, r, r', h, hn => by
      unfold accumulate at h
      split at h
      · exact absurd h (by simp)
      next r1 h1 => exact accumulate_nonneg h (incAt_nonneg h1 hn)

lemma accumulate_rowSum :
    ∀ {ps : List (List ℚ × List ℚ)} {r r' : List (List ℚ)},
      accumulate ps r = some r' → ∀ i,
        rowSumAt r' i = rowSumAt r i + (countTrue ps i : ℚ)
  | [], r, r', h, i => by
      obtain rfl : r = r' := Option.some_injective _ h
      simp [countTrue]
  | (y, pred) :: rest, r, r', h, i => by
      unfold accumulate at h
      split at h
      · exact absurd h (by simp)
      next r1 h1 =>
        have hrec := accumulate_rowSum h i
        have hstep := incAt_rowSum h1 i
        have hcnt : (countTrue ((y, pred) :: rest) i : ℚ) =
            (countTrue rest i : ℚ) + (if argmax y = i then 1 else 0) := by
          unfold countTrue
          rw [List.filter_cons]
          by_cases hyi : argmax y = i
          · simp [hyi]
          · simp [hyi]
        rw [hrec, hstep, hcnt]
        by_cases hyi : argmax y = i <;> simp [hyi] <;> ring

lemma accumulate_total :
    ∀ {ps : List (List ℚ × List ℚ)} {r : List (List ℚ)} {c : Nat},
      Shape r c → (∀ p ∈ ps, argmax p.1 < c ∧ argmax p.2 < c) →
      ∃ r', accumulate ps r = some r'
  | [], r, c, _, _ => ⟨r, rfl⟩
  | (y, pred) :: rest, r, c, hs, hb => by
      obtain ⟨hy, hpred⟩ := hb (y, pred) (List.mem_cons_self _ _)
      obtain ⟨row, hrow⟩ : ∃ row, r.get? (argmax y) = some row := by
        rw [List.get?_eq_getElem?, List.getElem?_eq_getElem (by rw [hs.1]; exact hy)]
        exact ⟨_, rfl⟩
      obtain ⟨v, hv⟩ : ∃ v, row.get? (argmax pred) = some v := by
        rw [List.get?_eq_getElem?,
          List.getElem?_eq_getElem (by rw [hs.2 _ _ hrow]; exact hpred)]
        exact ⟨_, rfl⟩
      have hinc : incAt r (argmax y) (argmax pred) =
          some (r.set (argmax y) (row.set (argmax pred) (v + 1))) := by
        unfold incAt
        rw [hrow]
        dsimp only
        rw [hv]
      obtain ⟨r', hr'⟩ := accumulate_total
        (incAt_shape hinc hs) (fun p hp => hb p (List.mem_cons_of_mem _ hp))
      exact ⟨r', by unfold accumulate; rw [hinc]; exact hr'⟩

lemma zeros_shape (c : Nat) : Shape (zeros c) c := by
  constructor
  · simp [zeros]
  · intro k row hk
    have := List.get?_mem hk
    rw [List.eq_of_mem_replicate this]
    simp

lemma zeros_nonneg (c : Nat) : EntriesNonneg (zeros c) := by
  intro k row hk v hv
  have := List.get?_mem hk
  rw [List.eq_of_mem_replicate this] at hv
  rw [List.eq_of_mem_replicate hv]

lemma zeros_rowSum (c i : Nat) : rowSumAt (zeros c) i = 0 := by
  unfold rowSumAt
  rcases hk : (zeros c).get? i with _ | row
  · simp
  · have := List.get?_mem hk
    rw [List.eq_of_mem_replicate this]
    simp

/- ## The flatten/split round trip of line 16 -/

lemma flatten_drop_take :
    ∀ (r : List (List ℚ)) (c : Nat), (∀ row ∈ r, row.length = c) →
      ∀ k, k < r.length → ((r.flatten.drop (k * c)).take c) = r.getD k []
  | [], _, _, k, hk => absurd hk (by simp)
  | row :: rest, c, hrow, 0, _ => by
      have hc : row.length = c := hrow row (List.mem_cons_self _ _)
      simp only [Nat.zero_mul, List.drop_zero, List.flatten_cons, List.getD]
      rw [List.take_left' hc]
      rfl
  | row :: rest, c, hrow, k + 1, hk => by
      have hc : row.length = c := hrow row (List.mem_cons_self _ _)
      have ih := flatten_drop_take rest c
        (fun w hw => hrow w (List.mem_cons_of_mem _ hw)) k (by simpa using hk)
      have hdrop : (row :: rest).flatten.drop ((k + 1) * c) = rest.flatten.drop (k * c) := by
        rw [List.flatten_cons, show (k + 1) * c = c + k * c by ring,
          ← List.drop_drop, List.drop_left' hc]
      rw [hdrop, ih]
      rfl

lemma npSplit_flatten {r : List (List ℚ)} {c : Nat} (hc : c ≠ 0)
    (h1 : r.length = c) (h2 : ∀ row ∈ r, row.length = c) :
    npSplit r.flatten c = some r := by
  have hmap : r.map List.length = List.replicate c c := by
    refine List.eq_replicate_iff.2 ⟨by simpa using h1, ?_⟩
    intro b hb
    rw [List.mem_map] at hb
    obtain ⟨row, hrow, rfl⟩ := hb
    exact h2 row hrow
  have hflat : r.flatten.length = c * c := by
    rw [List.length_flatten, hmap, List.sum_replicate, smul_eq_mul]
  have hsize : r.flatten.length / c = c := by
    rw [hflat, Nat.mul_div_cancel _ (Nat.pos_of_ne_zero hc)]
  have hmod : r.flatten.length % c = 0 := by
    rw [hflat]
    exact Nat.mul_mod_left c c
  unfold npSplit
  rw [if_neg hc, if_neg (by rw [hmod]; simp)]
  congr 1
  rw [hsize]
  apply List.ext_get?
  intro n
  rcases Nat.lt_or_ge n c with hn | hn
  · rw [List.get?_map, List.get?_eq_getElem?, List.getElem?_range hn,
      Option.map_some', flatten_drop_take r c h2 n (by rwa [h1]),
      List.getD_eq_getElem?_getD, List.get?_eq_getElem?,
      List.getElem?_eq_getElem (by rwa [h1] : n < r.length)]
    rfl
  · rw [List.get?_eq_none.2 (by simpa using hn),
      List.get?_eq_none.2 (by omega)]

/- ## Row normalization facts -/

lemma normalizeRowImpl_eq_map_div (a : List ℚ) :
    normalizeRowImpl a = a.map (fun v => v / a.sum) := by
  unfold normalizeRowImpl
  apply List.map_congr_left
  intro v _
  by_cases h : v = 0
  · simp [h]
  · simp [h]

lemma sum_map_div (l : List ℚ) (s : ℚ) :
    (l.map (fun v => v / s)).sum = l.sum / s := by
  induction l with
  | nil => simp
  | cons x xs ih => simp only [List.map_cons, List.sum_cons, ih]; ring

lemma normalizeRowImpl_sum {a : List ℚ} (h : a.sum ≠ 0) :
    (normalizeRowImpl a).sum = 1 := by
  rw [normalizeRowImpl_eq_map_div, sum_map_div, div_self h]

lemma normalizeRowImpl_bounds {a : List ℚ} (hpos : ∀ v ∈ a, 0 ≤ v)
    (h : a.sum ≠ 0) : ∀ w ∈ normalizeRowImpl a, 0 ≤ w ∧ w ≤ 1 := by
  rw [normalizeRowImpl_eq_map_div]
  intro w hw
  rw [List.mem_map] at hw
  obtain ⟨v, hv, rfl⟩ := hw
  have h0 : 0 ≤ v := hpos v hv
  have hle : v ≤ a.sum := List.single_le_sum hpos v hv
  have hs : 0 < a.sum := lt_of_le_of_ne (List.sum_nonneg hpos) (Ne.symm h)
  exact ⟨div_nonneg h0 hs.le, (div_le_one hs).2 hle⟩

lemma normalizeRowImpl_zero {a : List ℚ} (h : ∀ v ∈ a, v = 0) :
    ∀ w ∈ normalizeRowImpl a, w = 0 := by
  unfold normalizeRowImpl
  intro w hw
  rw [List.mem_map] at hw
  obtain ⟨v, hv, rfl⟩ := hw
  simp [h v hv]

lemma eq_zero_of_sum_eq_zero {a : List ℚ} (hpos : ∀ v ∈ a, 0 ≤ v)
    (h : a.sum = 0) : ∀ v ∈ a, v = 0 :=
  fun _ hv => List.all_zero_of_le_zero_le_of_sum_eq_zero hpos h hv

lemma cross_category_bleeding_eq_some {α : Type} {predict : α → List ℚ}
    {x_test : List α} {y_test : List (List ℚ)} {C bs : Nat} {m : List (List ℚ)}
    (hm : cross_category_bleeding predict x_test y_test C bs = some m) :
    ∃ r, accumulate (y_test.zip (x_test.map predict)) (zeros C) = some r ∧
      normalizeImpl r C = some m := by
  unfold cross_category_bleeding at hm
  dsimp only at hm
  split at hm
  · exact absurd hm (by simp)
  next r hr => exact ⟨r, hr, hm⟩

/-- Gathers everything C1 needs about the final count matrix `r`. -/
lemma bleeding_count_matrix {α : Type} {predict : α → List ℚ}
    {x_test : List α} {y_test : List (List ℚ)} {C bs : Nat} {m : List (List ℚ)}
    (hm : cross_category_bleeding predict x_test y_test C bs = some m) :
    ∃ r, Shape r C ∧ EntriesNonneg r ∧ m = r.map normalizeRowImpl ∧
      ∀ i, rowSumAt r i = (countTrue (y_test.zip (x_test.map predict)) i : ℚ) := by
  obtain ⟨r, hacc, hm'⟩ := cross_category_bleeding_eq_some hm
  have hs : Shape r C := accumulate_shape hacc (zeros_shape C)
  have hrows : ∀ row ∈ r, row.length = C := by
    intro row hrow
    obtain ⟨k, hk⟩ := List.get?_of_mem hrow
    exact hs.2 k row hk
  have hc : C ≠ 0 := by
    intro h
    subst h
    unfold normalizeImpl npSplit at hm'
    simp at hm'
  rw [show normalizeImpl r C = some (r.map normalizeRowImpl) from by
    unfold normalizeImpl
    rw [npSplit_flatten hc hs.1 hrows, Option.map_some']] at hm'
  refine ⟨r, hs, accumulate_nonneg hacc (zeros_nonneg C),
    (Option.some_injective _ hm').symm, ?_⟩
  intro i
  have := accumulate_rowSum hacc i
  rwa [zeros_rowSum, zero_add] at this

/-- C1: every row of the matrix returned by `cross_category_bleeding`
either sums to 1 and is a valid probability distribution (all entries in
`[0, 1]`), or is identically all-zero, and the all-zero case happens
exactly when no zipped test example has that true category. -/
theorem C1_row_distribution {α : Type} (predict : α → List ℚ)
    (x_test : List α) (y_test : List (List ℚ)) (C bs : Nat)
    (m : List (List ℚ))
    (hm : cross_category_bleeding predict x_test y_test C bs = some m)
    (i : Nat) (hi : i < C) :
    m.length = C ∧ ∃ row, m.get? i = some row ∧
      ((row.sum = 1 ∧ ∀ v ∈ row, 0 ≤ v ∧ v ≤ 1) ∨ ∀ v ∈ row, v = 0) ∧
      ((∀ v ∈ row, v = 0) ↔
        countTrue (y_test.zip (x_test.map predict)) i = 0) := by
  obtain ⟨r, hs, hn, hm', hsum⟩ := bleeding_count_matrix hm
  have hmlen : m.length = C := by rw [hm', List.length_map, hs.1]
  obtain ⟨crow, hcrow⟩ : ∃ crow, r.get? i = some crow := by
    rw [List.get?_eq_getElem?, List.getElem?_eq_getElem (by rw [hs.1]; exact hi)]
    exact ⟨_, rfl⟩
  have hrowpos : ∀ v ∈ crow, 0 ≤ v := hn i crow hcrow
  have hcrowsum : crow.sum = (countTrue (y_test.zip (x_test.map predict)) i : ℚ) := by
    have := hsum i
    unfold rowSumAt at this
    rwa [hcrow] at this
  refine ⟨hmlen, normalizeRowImpl crow, ?_, ?_, ?_⟩
  · rw [hm', List.get?_map, hcrow, Option.map_some']
  · rcases Nat.eq_zero_or_pos (countTrue (y_test.zip (x_test.map predict)) i)
      with hz | hpos
    · refine Or.inr (normalizeRowImpl_zero ?_)
      exact eq_zero_of_sum_eq_zero hrowpos (by rw [hcrowsum, hz]; simp)
    · have hsne : crow.sum ≠ 0 := by
        rw [hcrowsum]
        exact_mod_cast Nat.pos_iff_ne_zero.1 hpos
      exact Or.inl ⟨normalizeRowImpl_sum hsne, normalizeRowImpl_bounds hrowpos hsne⟩
  · constructor
    · intro hall
      by_contra hne
      have hsne : crow.sum ≠ 0 := by
        rw [hcrowsum]
        exact_mod_cast hne
      have h1 : (normalizeRowImpl crow).sum = 1 := normalizeRowImpl_sum hsne
      rw [List.sum_eq_zero hall] at h1
      exact zero_ne_one h1
    · intro hz
      refine normalizeRowImpl_zero ?_
      exact eq_zero_of_sum_eq_zero hrowpos (by rw [hcrowsum, hz]; simp)

/-- Witness for C1 at the §8 scenario input: 2 categories, 4 examples
with true/predicted pairs (0,0), (0,1), (1,1), (1,1). -/
theorem C1_row_distribution_witness :
    ([[ (1:ℚ)/2, 1/2], [0, 1]] : List (List ℚ)).length = 2 ∧
      ∃ row, ([[ (1:ℚ)/2, 1/2], [0, 1]] : List (List ℚ)).get? 0 = some row ∧
        ((row.sum = 1 ∧ ∀ v ∈ row, 0 ≤ v ∧ v ≤ 1) ∨ ∀ v ∈ row, v = 0) ∧
        ((∀ v ∈ row, v = 0) ↔
          countTrue ((([[1,0],[1,0],[0,1],[0,1]] : List (List ℚ))).zip
            (([0,1,2,3] : List Nat).map
              (fun n => if n = 0 then [(1:ℚ),0] else [0,1]))) 0 = 0) :=
  C1_row_distribution (fun n => if n = 0 then [(1:ℚ),0] else [0,1])
    [0,1,2,3] [[1,0],[1,0],[0,1],[0,1]] 2 32 [[1/2, 1/2], [0, 1]]
    (by norm_num [cross_category_bleeding, accumulate, incAt,
      argmax, argmaxAux, zeros, normalizeImpl, npSplit,
      normalizeRowImpl, List.range_succ, List.set_cons_zero, List.set_cons_succ,
      List.replicate_succ, List.flatten_cons, List.take_succ_cons,
      List.drop_succ_cons]) 0 (by norm_num)

/-- C6: the §8 scenario — 2 categories, 4 test examples whose
true/predicted argmax pairs are (0,0), (0,1), (1,1), (1,1) — yields the
matrix `[[0.5, 0.5], [0, 1.0]]`. -/
theorem C6_scenario :
    cross_category_bleeding (fun n => if n = 0 then [(1:ℚ),0] else [0,1])
      [0,1,2,3] [[1,0],[1,0],[0,1],[0,1]] 2 32 =
      some [[1/2, 1/2], [0, 1]] := by
  norm_num [cross_category_bleeding, accumulate, incAt,
    argmax, argmaxAux, zeros, normalizeImpl, npSplit,
    normalizeRowImpl, List.range_succ, List.set_cons_zero, List.set_cons_succ,
    List.replicate_succ, List.flatten_cons, List.take_succ_cons,
    List.drop_succ_cons]

/-- C2 counterexample: at the 0 × 0 count matrix (reachable from a
`y_test` of shape `(0, 0)`) the implemented line-16 computation fails —
`np.split(r.flatten(), 0)` raises `ZeroDivisionError` — while the
spec's per-row normalization yields the empty matrix, so the claimed
extensional equality over every nonnegative count matrix is false. -/
theorem C2_normalization_counterexample :
    normalizeImpl [] 0 ≠ some (normalizeSpec []) := by
  unfold normalizeImpl npSplit
  simp

/-- C2 amended: on every nonnegative `C × C` count matrix with at least
one category (`1 ≤ C`, the only shape on which line 16 does not raise),
the implemented flatten/split/per-entry-conditional/stack normalization
succeeds and equals the spec's per-row normalization (divide each row
by its sum if that sum is nonzero, else zero the row). -/
theorem C2_normalization_refinement (r : List (List ℚ)) (C : Nat)
    (hC : 1 ≤ C) (h1 : r.length = C) (h2 : ∀ row ∈ r, row.length = C)
    (h3 : ∀ row ∈ r, ∀ v ∈ row, 0 ≤ v) :
    normalizeImpl r C = some (normalizeSpec r) := by
  unfold normalizeImpl
  rw [npSplit_flatten (by omega) h1 h2, Option.map_some']
  congr 1
  unfold normalizeSpec
  apply List.map_congr_left
  intro row hrow
  by_cases hs : row.sum = 0
  · have hz := eq_zero_of_sum_eq_zero (h3 row hrow) hs
    unfold normalizeRowImpl normalizeRowSpec
    rw [if_neg (by simpa using hs)]
    apply List.map_congr_left
    intro v hv
    simp [hz v hv]
  · unfold normalizeRowSpec
    rw [if_pos hs]
    exact normalizeRowImpl_eq_map_div row

/-- Witness for C2 at a concrete nonnegative 2×2 count matrix. -/
theorem C2_normalization_refinement_witness :
    normalizeImpl [[1, 1], [0, 0]] 2 =
      some (normalizeSpec [[(1:ℚ), 1], [0, 0]]) :=
  C2_normalization_refinement [[1, 1], [0, 0]] 2 (by norm_num)
    (by norm_num) (by norm_num) (by norm_num)

/-- C5 counterexample: calling `cross_category_bleeding` with an empty
test set (here with 2 categories) does not execute any division by
zero — the per-entry guard skips all divisions — and the call silently
returns the all-zero matrix instead of failing. -/
theorem C5_counterexample :
    cross_category_bleeding_divides_by_zero
        (fun _ : Nat => ([] : List ℚ)) [] [] 2 = false ∧
      cross_category_bleeding (fun _ : Nat => ([] : List ℚ)) [] [] 2 0 =
        some [[0, 0], [0, 0]] := by
  constructor
  · norm_num [cross_category_bleeding_divides_by_zero, normalizeDividesByZero,
      accumulate, zeros, npSplit, List.range_succ, List.replicate_succ,
      List.flatten_cons, List.take_succ_cons, List.drop_succ_cons]
  · norm_num [cross_category_bleeding, accumulate, zeros, normalizeImpl,
      npSplit, normalizeRowImpl, List.range_succ, List.replicate_succ,
      List.flatten_cons, List.take_succ_cons, List.drop_succ_cons]

/-- C5 amended: with an empty test set the outcome is decided by the
label width `cat_count = np.shape(y_test)[1]`.  When `cat_count = 0`
(a `y_test` of shape `(0, 0)`) `np.split` raises `ZeroDivisionError`,
so a division by zero does occur; when `cat_count ≥ 1` the entry guard
(`if v`) skips every division — all counts are zero — and the call
silently returns the all-zero `cat_count × cat_count` matrix. -/
theorem C5_amended_no_division {α : Type} (predict : α → List ℚ)
    (C bs : Nat) :
    (C = 0 →
      cross_category_bleeding predict [] [] C bs = none ∧
        cross_category_bleeding_divides_by_zero predict [] [] C = true) ∧
      (1 ≤ C →
        cross_category_bleeding predict [] [] C bs = some (zeros C) ∧
          cross_category_bleeding_divides_by_zero predict [] [] C = false) := by
  constructor
  · rintro rfl
    constructor
    · show normalizeImpl (zeros 0) 0 = none
      unfold normalizeImpl npSplit
      simp
    · show normalizeDividesByZero (zeros 0) 0 = true
      unfold normalizeDividesByZero
      simp
  · intro hC
    have hc0 : C ≠ 0 := by omega
    have hzsh := zeros_shape C
    have hrow : ∀ row ∈ zeros C, row.length = C := by
      intro row hrow
      rw [List.eq_of_mem_replicate hrow]
      simp
    have hsplit : npSplit (zeros C).flatten C = some (zeros C) :=
      npSplit_flatten hc0 hzsh.1 hrow
    have hnorm : normalizeImpl (zeros C) C = some (zeros C) := by
      unfold normalizeImpl
      rw [hsplit, Option.map_some']
      congr 1
      unfold zeros
      rw [List.map_replicate]
      congr 1
      unfold normalizeRowImpl
      rw [List.map_replicate]
      simp
    constructor
    · show normalizeImpl (zeros C) C = some (zeros C)
      exact hnorm
    · show normalizeDividesByZero (zeros C) C = false
      unfold normalizeDividesByZero
      rw [hsplit]
      rw [Bool.or_eq_false_iff]
      refine ⟨by simpa using hc0, ?_⟩
      rw [List.any_eq_false]
      intro row hrowm
      rw [List.eq_of_mem_replicate hrowm, Bool.not_eq_true, List.any_eq_false]
      intro v hv
      rw [List.eq_of_mem_replicate hv]
      simp

/-- Witness for C5's amended claim: an empty test set with 2 categories
returns the all-zero matrix with no division by zero. -/
theorem C5_amended_no_division_witness :
    cross_category_bleeding (fun _ : Nat => ([] : List ℚ)) [] [] 2 5 =
        some (zeros 2) ∧
      cross_category_bleeding_divides_by_zero
        (fun _ : Nat => ([] : List ℚ)) [] [] 2 = false :=
  (C5_amended_no_division (fun _ : Nat => ([] : List ℚ)) 2 5).2 (by norm_num)

/-- C9: the `batch_size` argument has no effect on the result of
`cross_category_bleeding` (noninterference). -/
theorem C9_batch_size_noninterference {α : Type} (predict : α → List ℚ)
    (x_test : List α) (y_test : List (List ℚ)) (C b1 b2 : Nat) :
    cross_category_bleeding predict x_test y_test C b1 =
      cross_category_bleeding predict x_test y_test C b2 := rfl

/-- C10: the dimension of the matrix built by `cross_category_bleeding`
is the column width `C = np.shape(y_test)[1]` of the label array, not
the classifier's output width — any matrix the call returns is `C × C`
(first conjunct); under the precondition that every zipped example has
both argmaxes below `C`, the count accumulation `r[true][pred]` never
indexes out of bounds and builds a `C × C` count matrix (second
conjunct); and without that precondition a classifier emitting a vector
wider than the labels can index out of range — a width-2 prediction
against width-1 labels makes the call fail (third conjunct). -/
theorem C10_dimension_from_labels :
    (∀ (α : Type) (predict : α → List ℚ) (x_test : List α)
        (y_test : List (List ℚ)) (C bs : Nat) (m : List (List ℚ)),
      cross_category_bleeding predict x_test y_test C bs = some m →
      m.length = C ∧ ∀ row ∈ m, row.length = C) ∧
      (∀ (α : Type) (predict : α → List ℚ) (x_test : List α)
          (y_test : List (List ℚ)) (C : Nat),
        (∀ p ∈ y_test.zip (x_test.map predict),
            argmax p.1 < C ∧ argmax p.2 < C) →
        ∃ r, accumulate (y_test.zip (x_test.map predict)) (zeros C) =
            some r ∧ Shape r C) ∧
      cross_category_bleeding (fun _ : Nat => [(0:ℚ), 1]) [0] [[1]] 1 0 =
        none := by
  refine ⟨?_, ?_, ?_⟩
  · intro α predict x_test y_test C bs m hm
    obtain ⟨r, hs, _, hm', _⟩ := bleeding_count_matrix hm
    have hrows : ∀ row ∈ r, row.length = C := by
      intro row hrowm
      obtain ⟨k, hk⟩ := List.get?_of_mem hrowm
      exact hs.2 k row hk
    subst hm'
    refine ⟨by rw [List.length_map, hs.1], ?_⟩
    intro row hrowm
    rw [List.mem_map] at hrowm
    obtain ⟨crow, hcrow, rfl⟩ := hrowm
    unfold normalizeRowImpl
    rw [List.length_map]
    exact hrows crow hcrow
  · intro α predict x_test y_test C hb
    obtain ⟨r, hr⟩ := accumulate_total (zeros_shape C) hb
    exact ⟨r, hr, accumulate_shape hr (zeros_shape C)⟩
  · norm_num [cross_category_bleeding, accumulate, incAt, argmax, argmaxAux,
      zeros, List.replicate_succ]

/-- Witness for C10 at a concrete in-bounds input: the precondition
holds, so the accumulation succeeds and builds a 1 × 1 count matrix. -/
theorem C10_dimension_from_labels_witness :
    ∃ r, accumulate (([[(1:ℚ)]]).zip
          (([0] : List Nat).map (fun _ => [(1:ℚ)]))) (zeros 1) = some r ∧
      Shape r 1 :=
  C10_dimension_from_labels.2.1 Nat (fun _ => [(1:ℚ)]) [0] [[1]] 1
    (by intro p hp
        simp only [List.map_cons, List.map_nil, List.zip_cons_cons,
          List.zip_nil_right, List.mem_singleton] at hp
        subst hp
        norm_num [argmax, argmaxAux])

/- ## The argmax scan, for the tie-break claim -/

/-- Complete case analysis of the `argmaxAux` scan: either no element of
the remaining list strictly beats the current best (the best index is
returned), or the scan returns `i + k` for the first `k` whose value
strictly beats the current best and is a maximum of the remaining
list. -/
lemma argmaxAux_cases :
    ∀ (l : List ℚ) (i best : Nat) (bestv : ℚ),
      (argmaxAux l i best bestv = best ∧ ∀ w ∈ l, w ≤ bestv) ∨
      (∃ k, ∃ hk : k < l.length, argmaxAux l i best bestv = i + k ∧
        bestv < l.get ⟨k, hk⟩ ∧
        (∀ j (hj : j < l.length), l.get ⟨j, hj⟩ ≤ l.get ⟨k, hk⟩) ∧
        (∀ j (hj : j < k), l.get ⟨j, Nat.lt_trans hj hk⟩ < l.get ⟨k, hk⟩))
  | [], i, best, bestv => Or.inl ⟨rfl, by simp⟩
  | v :: rest, i, best, bestv => by
      unfold argmaxAux
      by_cases hv : bestv < v
      · rw [if_pos hv]
        rcases argmaxAux_cases rest (i + 1) i v with ⟨hres, hall⟩ | ⟨k, hk, hres, hbeat, hmax, hstrict⟩
        · refine Or.inr ⟨0, by simp, by simpa using hres, by simpa using hv, ?_, ?_⟩
          · intro j hj
            match j with
            | 0 => exact le_refl _
            | j' + 1 =>
              show rest.get ⟨j', _⟩ ≤ v
              exact hall _ (rest.get_mem _ _)
          · intro j hj
            exact absurd hj (Nat.not_lt_zero j)
        · refine Or.inr ⟨k + 1, by simpa using hk, by rw [hres]; omega, ?_, ?_, ?_⟩
          · show bestv < rest.get ⟨k, hk⟩
            exact lt_trans hv hbeat
          · intro j hj
            match j with
            | 0 => exact le_of_lt hbeat
            | j' + 1 =>
              show rest.get ⟨j', _⟩ ≤ rest.get ⟨k, hk⟩
              exact hmax j' (by simpa using hj)
          · intro j hj
            match j with
            | 0 => exact hbeat
            | j' + 1 =>
              show rest.get ⟨j', _⟩ < rest.get ⟨k, hk⟩
              exact hstrict j' (by omega)
      · rw [if_neg hv]
        have hvle : v ≤ bestv := le_of_not_lt hv
        rcases argmaxAux_cases rest (i + 1) best bestv with ⟨hres, hall⟩ | ⟨k, hk, hres, hbeat, hmax, hstrict⟩
        · refine Or.inl ⟨hres, ?_⟩
          intro w hw
          rcases List.mem_cons.1 hw with rfl | hw'
          · exact hvle
          · exact hall w hw'
        · refine Or.inr ⟨k + 1, by simpa using hk, by rw [hres]; omega, ?_, ?_, ?_⟩
          · show bestv < rest.get ⟨k, hk⟩
            exact hbeat
          · intro j hj
            match j with
            | 0 => exact le_of_lt (lt_of_le_of_lt hvle hbeat)
            | j' + 1 =>
              show rest.get ⟨j', _⟩ ≤ rest.get ⟨k, hk⟩
              exact hmax j' (by simpa using hj)
          · intro j hj
            match j with
            | 0 => exact lt_of_le_of_lt hvle hbeat
            | j' + 1 =>
              show rest.get ⟨j', _⟩ < rest.get ⟨k, hk⟩
              exact hstrict j' (by omega)

/-- C7: on every nonempty vector, the index chosen by the argmax used in
`cross_category_bleeding` attains the maximum value, and among all
indices attaining the maximum it is the lowest (ties resolve to the
lowest index). -/
theorem C7_argmax_lowest_tie (v : List ℚ) (hne : v ≠ []) :
    argmax v < v.length ∧
      (∀ j, j < v.length → v.getD j 0 ≤ v.getD (argmax v) 0) ∧
      ∀ j, j < v.length → v.getD j 0 = v.getD (argmax v) 0 → argmax v ≤ j := by
  match v, hne with
  | w :: rest, _ =>
    have hdef : argmax (w :: rest) = argmaxAux rest 1 0 w := rfl
    rcases argmaxAux_cases rest 1 0 w with ⟨hres, hall⟩ | ⟨k, hk, hres, hbeat, hmax, hstrict⟩
    · rw [hdef, hres]
      refine ⟨Nat.succ_pos _, ?_, ?_⟩
      · intro j hj
        match j with
        | 0 => exact le_refl _
        | j' + 1 =>
          rw [List.getD_cons_succ, List.getD_cons_zero]
          have hj' : j' < rest.length := by simpa using hj
          rw [List.getD_eq_getElem _ _ hj']
          exact hall _ (List.getElem_mem hj')
      · intro j _ _
        exact Nat.zero_le j
    · rw [hdef, hres]
      have hget : (w :: rest).getD (1 + k) 0 = rest.get ⟨k, hk⟩ := by
        rw [show 1 + k = k + 1 by omega, List.getD_cons_succ,
          List.getD_eq_getElem _ _ hk]
        rfl
      refine ⟨by rw [List.length_cons]; omega, ?_, ?_⟩
      · intro j hj
        rw [hget]
        match j with
        | 0 => exact le_of_lt hbeat
        | j' + 1 =>
          rw [List.getD_cons_succ]
          have hj' : j' < rest.length := by simpa using hj
          rw [List.getD_eq_getElem _ _ hj']
          exact hmax j' hj'
      · intro j hj heq
        rw [hget] at heq
        match j with
        | 0 =>
          rw [List.getD_cons_zero] at heq
          exact absurd heq (ne_of_lt hbeat)
        | j' + 1 =>
          by_contra hcon
          have hj'k : j' < k := by omega
          have hlt := hstrict j' hj'k
          rw [List.getD_cons_succ] at heq
          rw [List.getD_eq_getElem _ _ (Nat.lt_trans hj'k hk)] at heq
          have : rest.get ⟨j', Nat.lt_trans hj'k hk⟩ = rest.get ⟨k, hk⟩ := by
            rw [← heq]
            rfl
          rw [this] at hlt
          exact lt_irrefl _ hlt

/-- Witness for C7 on a vector with a genuine argmax tie. -/
theorem C7_argmax_lowest_tie_witness :
    argmax [(1:ℚ), 1] < ([(1:ℚ), 1]).length ∧
      (∀ j, j < ([(1:ℚ), 1]).length →
        ([(1:ℚ), 1]).getD j 0 ≤ ([(1:ℚ), 1]).getD (argmax [(1:ℚ), 1]) 0) ∧
      ∀ j, j < ([(1:ℚ), 1]).length →
        ([(1:ℚ), 1]).getD j 0 = ([(1:ℚ), 1]).getD (argmax [(1:ℚ), 1]) 0 →
          argmax [(1:ℚ), 1] ≤ j :=
  C7_argmax_lowest_tie [(1:ℚ), 1] (by simp)

/- ## Facts about the diagram renderer -/

lemma pos_mul_hundred (v : ℚ) : 0 < v * 100 ↔ 0 < v := by
  constructor
  · intro h
    nlinarith
  · intro h
    nlinarith

lemma rowEdges_length (i : Nat) (preds : List ℚ) :
    (rowEdges i preds).length =
      (preds.filter (fun v => decide (0 < v))).length := by
  induction preds using List.reverseRecOn with
  | nil => rfl
  | append_singleton l a ih =>
      unfold rowEdges at ih ⊢
      rw [show (l ++ [a]).length = l.length + 1 from by simp,
        List.range_succ, List.filterMap_append,
        List.length_append, List.filter_append, List.length_append]
      congr 1
      · rw [← ih]
        congr 1
        apply List.filterMap_congr
        intro pred_c hc
        rw [List.mem_range] at hc
        rw [List.getD_eq_getElem?_getD, List.getElem?_append_left hc,
          ← List.getD_eq_getElem?_getD]
      · have hgd : (l ++ [a]).getD l.length 0 = a := by
          rw [List.getD_eq_getElem?_getD, List.getElem?_append_right (le_refl _)]
          simp
        by_cases hpos : 0 < a
        · simp [hgd, hpos, pos_mul_hundred]
        · simp [hgd, hpos, pos_mul_hundred]

lemma map_range_lengths (m : List (List ℚ)) :
    (List.range m.length).map
        (fun i => (rowEdges i (m.getD i [])).length) =
      m.map (fun row => (row.filter (fun v => decide (0 < v))).length) := by
  apply List.ext_get?
  intro n
  rw [List.get?_eq_getElem?, List.get?_eq_getElem?, List.getElem?_map,
    List.getElem?_map]
  rcases Nat.lt_or_ge n m.length with hn | hn
  · rw [List.getElem?_range hn, List.getElem?_eq_getElem hn,
      Option.map_some', Option.map_some', rowEdges_length,
      List.getD_eq_getElem?_getD, List.getElem?_eq_getElem hn]
    rfl
  · rw [List.getElem?_eq_none (by simpa using hn),
      List.getElem?_eq_none hn]
    rfl

lemma graphviz_edges_length (m : List (List ℚ)) (labels : List String) :
    (graphviz_cross_category_diagram m labels).2.length = countPos m := by
  unfold graphviz_cross_category_diagram countPos
  dsimp only
  rw [List.length_flatMap,
    show (List.length ∘ fun true_c => rowEdges true_c (m.getD true_c [])) =
      (fun i => (rowEdges i (m.getD i [])).length) from rfl,
    map_range_lengths]

/-- C3: the diagram has one node per matrix row, and exactly one edge
per strictly positive matrix entry — the edge count equals the number of
strictly positive entries; each positive entry `(i, j)` contributes the
edge from node `i` to node `j` labelled with the entry times 100
formatted to three decimals followed by `%`; every edge arises this way;
and an all-zero matrix produces no edges while keeping all nodes. -/
theorem C3_diagram_edges (m : List (List ℚ)) (labels : List String) :
    (graphviz_cross_category_diagram m labels).2.length = countPos m ∧
      (graphviz_cross_category_diagram m labels).1.length = m.length ∧
      (∀ i j, i < m.length → j < (m.getD i []).length →
        0 < (m.getD i []).getD j 0 * 100 →
        (⟨node_name i, node_name j,
          formatFixed3 ((m.getD i []).getD j 0 * 100) ++ "%"⟩ : GvEdge) ∈
          (graphviz_cross_category_diagram m labels).2) ∧
      (∀ e ∈ (graphviz_cross_category_diagram m labels).2,
        ∃ i j, i < m.length ∧ j < (m.getD i []).length ∧
          0 < (m.getD i []).getD j 0 * 100 ∧
          e = ⟨node_name i, node_name j,
            formatFixed3 ((m.getD i []).getD j 0 * 100) ++ "%"⟩) ∧
      ((∀ row ∈ m, ∀ v ∈ row, v = 0) →
        (graphviz_cross_category_diagram m labels).2 = []) := by
  refine ⟨graphviz_edges_length m labels, ?_, ?_, ?_, ?_⟩
  · unfold graphviz_cross_category_diagram
    dsimp only
    rw [List.length_map, List.length_range]
  · intro i j hi hj hpos
    unfold graphviz_cross_category_diagram
    dsimp only
    rw [List.mem_flatMap]
    refine ⟨i, List.mem_range.2 hi, ?_⟩
    unfold rowEdges
    rw [List.mem_filterMap]
    refine ⟨j, List.mem_range.2 hj, ?_⟩
    rw [if_pos hpos]
  · intro e he
    unfold graphviz_cross_category_diagram at he
    dsimp only at he
    rw [List.mem_flatMap] at he
    obtain ⟨i, hi, he⟩ := he
    unfold rowEdges at he
    rw [List.mem_filterMap] at he
    obtain ⟨j, hj, he⟩ := he
    rw [List.mem_range] at hi hj
    by_cases hpos : 0 < (m.getD i []).getD j 0 * 100
    · rw [if_pos hpos] at he
      exact ⟨i, j, hi, hj, hpos, (Option.some_injective _ he).symm⟩
    · rw [if_neg hpos] at he
      exact absurd he (by simp)
  · intro hz
    have hcp : countPos m = 0 := by
      unfold countPos
      rw [List.sum_eq_zero]
      intro x hx
      rw [List.mem_map] at hx
      obtain ⟨row, hrow, rfl⟩ := hx
      rw [List.length_eq_zero, List.filter_eq_nil]
      intro v hv
      rw [hz row hrow v hv]
      simp
    rw [← List.length_eq_zero, graphviz_edges_length, hcp]

/-- Witness for C3 at the identity confusion matrix: the self-loop edge
on category 0 labelled `100.000%` is produced. -/
theorem C3_diagram_edges_witness :
    (⟨node_name 0, node_name 0, formatFixed3 ((1:ℚ) * 100) ++ "%"⟩ :
        GvEdge) ∈
      (graphviz_cross_category_diagram [[(1:ℚ), 0], [0, 1]] []).2 :=
  (C3_diagram_edges [[(1:ℚ), 0], [0, 1]] []).2.2.1 0 0 (by norm_num)
    (by norm_num) (by norm_num)

/-- C8: node `i` of the diagram is always produced, named `Ci`, and
displays the provided label at index `i` when the labels list is long
enough, else the generated placeholder `Category i` — so a labels list
shorter than the matrix (including the empty list) never causes a
failure. -/
theorem C8_node_label_fallback (m : List (List ℚ)) (labels : List String)
    (i : Nat) (hi : i < m.length) :
    (graphviz_cross_category_diagram m labels).1.get? i =
      some ⟨node_name i,
        if h : i < labels.length then labels.get ⟨i, h⟩
        else "Category " ++ toString i⟩ := by
  unfold graphviz_cross_category_diagram
  dsimp only
  rw [List.get?_eq_getElem?, List.getElem?_map, List.getElem?_range hi,
    Option.map_some']
  rfl

/-- Witness for C8: an empty labels list yields the placeholder
`Category 1` on node 1. -/
theorem C8_node_label_fallback_witness :
    (graphviz_cross_category_diagram [[(1:ℚ), 0], [0, 1]] []).1.get? 1 =
      some ⟨node_name 1,
        if h : 1 < ([] : List String).length then ([] : List String).get ⟨1, h⟩
        else "Category " ++ toString 1⟩ :=
  C8_node_label_fallback [[(1:ℚ), 0], [0, 1]] [] 1 (by norm_num)

/- ## The incremental classification plotter -/

/-- C4: on an input of length `n ≥ 2` the plotter builds exactly `n - 1`
prediction rows, one per prefix length `i` from 1 to `n - 1` (the
full-length prefix is excluded); the row for prefix length `i` carries
the partial-label character at index `i - 1` when that index is within
the partial-label sequence, else the empty string, together with the
classifier's output on the prefix `x[0:i]`. -/
theorem C4_prediction_rows {α : Type} (predict : List α → List ℚ)
    (partnum : List String) (x : List α) (h : 2 ≤ x.length) :
    (char_by_char_classification_plot predict partnum x).length =
        x.length - 1 ∧
      ∀ i, 1 ≤ i → i ≤ x.length - 1 →
        (char_by_char_classification_plot predict partnum x).get? (i - 1) =
          some ((if i - 1 < partnum.length then partnum.getD (i - 1) ""
              else ""),
            predict (x.take i)) := by
  constructor
  · unfold char_by_char_classification_plot
    rw [List.length_map, List.enum_length, List.length_map, List.length_range']
  · intro i h1 h2
    unfold char_by_char_classification_plot
    rw [List.get?_eq_getElem?, List.getElem?_map, List.getElem?_enum,
      List.getElem?_map, List.getElem?_range' 1 1 (by omega),
      Option.map_some', Option.map_some', Option.map_some']
    rw [show 1 + 1 * (i - 1) = i from by omega]

/-- Witness for C4: a 3-element input yields exactly 2 rows, and the
first row pairs the first partial-label character with the prediction on
the length-1 prefix. -/
theorem C4_prediction_rows_witness :
    (char_by_char_classification_plot
        (fun l : List Nat => [(l.length : ℚ)]) ["a", "b", "c"]
        [10, 20, 30]).length = ([10, 20, 30] : List Nat).length - 1 ∧
      ∀ i, 1 ≤ i → i ≤ ([10, 20, 30] : List Nat).length - 1 →
        (char_by_char_classification_plot
            (fun l : List Nat => [(l.length : ℚ)]) ["a", "b", "c"]
            [10, 20, 30]).get? (i - 1) =
          some ((if i - 1 < (["a", "b", "c"] : List String).length
              then (["a", "b", "c"] : List String).getD (i - 1) "" else ""),
            (fun l : List Nat => [(l.length : ℚ)])
              (([10, 20, 30] : List Nat).take i)) :=
  C4_prediction_rows (fun l : List Nat => [(l.length : ℚ)])
    ["a", "b", "c"] [10, 20, 30] (by norm_num)

end Utils
